import Mathlib

/-!
Verification of the yearly aggregation-and-merge batch job of the
global-music-taste-explorer repository
(scripts/backfill_2021_from_kagglehub.py), together with the column
sets its two dashboard front ends (app.py, Shiny_migration/app.py)
read from the three persisted tables.

The embedding translates the pandas pipeline into pure list functions:

  - a DataFrame is a list of records; a NaN cell is an Option that is none;
  - pd.to_datetime(errors="coerce") / pd.to_numeric(errors="coerce") are
    modelled by the corresponding field already being an Option
    (none covers both a missing and an unparseable value);
  - groupby(sort=True) collects the distinct key tuples, sorts them
    ascending, and aggregates the rows of each key; rows whose group key
    is NaN are dropped (the pandas default dropna=True);
  - sort_values on several columns is the stable lexicographic sort
    (pandas uses numpy lexsort for multi-column sorts, which is stable);
    it is modelled by insertion sort, which computes the same stable order;
  - groupby(...).cumcount() numbers the rows of each group in frame order;
  - drop_duplicates(subset, keep="last") keeps, in frame order, the last
    occurrence of every key tuple.
-/

/-! ### String comparison, kernel-computable

Python compares strings lexicographically by code point; the core String
order does not reduce in the kernel, so the comparison is spelled out on
the character list. -/

def charsLT : List Char → List Char → Bool
  | [], [] => false
  | [], _ :: _ => true
  | _ :: _, [] => false
  | a :: as, b :: bs => decide (a < b) || (a = b && charsLT as bs)

def strLT (s t : String) : Bool := charsLT s.data t.data

/-- Model of str.lower(): lowercase every character. -/
def lowerStr (s : String) : String := ⟨s.data.map Char.toLower⟩

/-! ### Data model -/

/-- A calendar day, as far as the script observes it: pd.to_datetime
produces values compared for equality (date nunique) and asked for their
year (dt.year). -/
structure DayDate where
  year : Int
  ord : Nat
deriving DecidableEq, Repr

/-- One raw row of charts.csv, after the two errors="coerce" conversions:
date is none when missing or unparseable, rank is none when missing or
non-numeric, streams is none when missing or non-numeric, url is none when
the cell is empty. -/
structure RawRow where
  date : Option DayDate
  region : Option String
  chart : Option String
  rank : Option Int
  streams : Option Int
  title : String
  artist : String
  url : Option String
deriving DecidableEq, Repr

/-- One cleaned row of df_2021: date, region, chart and rank present,
year 2021, chart top200. -/
structure ChartRow where
  date : DayDate
  region : String
  chart : String
  rank : Int
  streams : Option Int
  title : String
  artist : String
  url : Option String
  year : Int
deriving DecidableEq, Repr

/-- The cleaning pass of the script:
dropna(subset=["date", "region", "chart", "rank"]), the year-2021 and
chart top200 filter, to_numeric on rank with a second dropna.
The two rank drops (missing, then non-numeric) are both covered by
rank being none. -/
def df_2021 (raw : List RawRow) : List ChartRow :=
  raw.filterMap fun r =>
    match r.date, r.region, r.chart, r.rank with
    | some d, some reg, some ch, some rk =>
      if d.year = 2021 ∧ lowerStr ch = "top200" then
        some ⟨d, reg, ch, rk, r.streams, r.title, r.artist, r.url, 2021⟩
      else none
    | _, _, _, _ => none

/-! ### groupby helpers -/

/-- Stable sort by a Bool comparator (le a b means a may come before b). -/
def sortByB {α : Type} (le : α → α → Bool) (l : List α) : List α :=
  @List.insertionSort α (fun a b => le a b = true)
    (fun a b => instDecidableEqBool (le a b) true) l

/-- The distinct group keys of a list, in ascending key order
(groupby with the default sort=True). -/
def groupKeys {α κ : Type} [DecidableEq κ] (leKey : κ → κ → Bool)
    (keyOf : α → Option κ) (l : List α) : List κ :=
  sortByB leKey (l.filterMap keyOf).dedup

/-! ### country_year_summary (cys_2021) -/

structure CYSRow where
  region : String
  year : Int
  chart_rows : Nat
  unique_tracks : Nat
  unique_artists : Nat
  total_streams : Int
  avg_streams : Option ℚ
deriving DecidableEq, Repr

def leRY (a b : String × Int) : Bool :=
  strLT a.1 b.1 || (a.1 = b.1 && decide (a.2 ≤ b.2))

def cysKeyOf (r : ChartRow) : String × Int := (r.region, r.year)

/-- The aggregation of one (region, year) group:
chart_rows = size, unique_tracks = nunique of url (nunique drops NaN),
unique_artists = nunique of artist, total_streams = sum of streams
(skipna, empty sum 0), avg_streams = mean of streams (skipna, mean of
nothing is NaN, modelled as none). -/
def cysAggOf (rows : List ChartRow) (k : String × Int) : CYSRow :=
  let g := rows.filter fun r => decide (cysKeyOf r = k)
  let present := g.filterMap (·.streams)
  { region := k.1
    year := k.2
    chart_rows := g.length
    unique_tracks := (g.filterMap (·.url)).dedup.length
    unique_artists := (g.map (·.artist)).dedup.length
    total_streams := present.sum
    avg_streams := if present.length = 0 then none
      else some (mkRat present.sum present.length) }

def cys_2021 (rows : List ChartRow) : List CYSRow :=
  (groupKeys leRY (fun r => some (cysKeyOf r)) rows).map (cysAggOf rows)

/-! ### top_tracks_country_year_top500 (tt_2021), before ranking -/

structure TTAgg where
  region : String
  year : Int
  url : String
  title : String
  artist : String
  streams : Int
  best_rank : Int
  days_on_chart : Nat
deriving DecidableEq, Repr

abbrev TTKey := String × Int × String × String × String

def leTT (a b : TTKey) : Bool :=
  strLT a.1 b.1 || (a.1 = b.1 &&
    (decide (a.2.1 < b.2.1) || (a.2.1 = b.2.1 &&
      (strLT a.2.2.1 b.2.2.1 || (a.2.2.1 = b.2.2.1 &&
        (strLT a.2.2.2.1 b.2.2.2.1 || (a.2.2.2.1 = b.2.2.2.1 &&
          strLT a.2.2.2.2 b.2.2.2.2)))))))

/-- The groupby key of tt_2021: (region, year, url, title, artist).
track_key is the url column (the column exists in the expected schema, so
the column-level fallback to title does not fire). A row whose url cell
is NaN has a NaN group key and is dropped by groupby, hence the Option. -/
def ttKeyOf (r : ChartRow) : Option TTKey :=
  r.url.map fun u => (r.region, r.year, u, r.title, r.artist)

def ttAggOf (rows : List ChartRow) (k : TTKey) : TTAgg :=
  let g := rows.filter fun r => decide (ttKeyOf r = some k)
  { region := k.1
    year := k.2.1
    url := k.2.2.1
    title := k.2.2.2.1
    artist := k.2.2.2.2
    streams := (g.filterMap (·.streams)).sum
    best_rank := ((g.map (·.rank)).min?).getD 0
    days_on_chart := (g.map (·.date)).dedup.length }

def ttGroups (rows : List ChartRow) : List TTAgg :=
  (groupKeys leTT ttKeyOf rows).map (ttAggOf rows)

/-! ### artist_country_year_top200 (ay_2021), before ranking -/

structure AYAgg where
  region : String
  year : Int
  artist : String
  streams : Int
  track_count : Nat
  days_on_chart : Nat
  best_rank : Int
deriving DecidableEq, Repr

abbrev AYKey := String × Int × String

def leAY (a b : AYKey) : Bool :=
  strLT a.1 b.1 || (a.1 = b.1 &&
    (decide (a.2.1 < b.2.1) || (a.2.1 = b.2.1 && strLT a.2.2 b.2.2)))

def ayKeyOf (r : ChartRow) : AYKey := (r.region, r.year, r.artist)

def ayAggOf (rows : List ChartRow) (k : AYKey) : AYAgg :=
  let g := rows.filter fun r => decide (ayKeyOf r = k)
  { region := k.1
    year := k.2.1
    artist := k.2.2
    streams := (g.filterMap (·.streams)).sum
    track_count := (g.filterMap (·.url)).dedup.length
    days_on_chart := (g.map (·.date)).dedup.length
    best_rank := ((g.map (·.rank)).min?).getD 0 }

def ayGroups (rows : List ChartRow) : List AYAgg :=
  (groupKeys leAY (fun r => some (ayKeyOf r)) rows).map (ayAggOf rows)

/-! ### Ranking: sort_values, cumcount, truncation -/

section RankPipeline

variable {β : Type} (reg : β → String) (yr : β → Int) (st : β → Int)

/-- sort_values(["region", "year", "streams"], ascending=[True, True,
False]): region ascending, year ascending, streams descending. -/
def rankLE (a b : β) : Bool :=
  strLT (reg a) (reg b) || (reg a = reg b &&
    (decide (yr a < yr b) || (yr a = yr b && decide (st b ≤ st a))))

def sortStep (l : List β) : List β := sortByB (rankLE reg yr st) l

/-- groupby(["region", "year"]).cumcount() + 1: each row is paired with
one plus the number of earlier rows of the same (region, year). -/
def cumAux : List β → List β → List (β × Nat)
  | _, [] => []
  | seen, x :: xs =>
    (x, (seen.filter fun y => decide (reg y = reg x ∧ yr y = yr x)).length + 1) ::
      cumAux (seen ++ [x]) xs

def rankStep (l : List β) : List (β × Nat) :=
  cumAux reg yr [] (sortStep reg yr st l)

end RankPipeline

/-- Retain rows with rank_year at most the limit. -/
def truncStep {β : Type} (limit : Nat) (l : List (β × Nat)) : List (β × Nat) :=
  l.filter fun p => decide (p.2 ≤ limit)

def tt_2021 (rows : List ChartRow) : List (TTAgg × Nat) :=
  truncStep 500 (rankStep TTAgg.region TTAgg.year TTAgg.streams (ttGroups rows))

def ay_2021 (rows : List ChartRow) : List (AYAgg × Nat) :=
  truncStep 200 (rankStep AYAgg.region AYAgg.year AYAgg.streams (ayGroups rows))

/-! ### append_dedupe (the merge into the persisted table) -/

section Dedupe

variable {α κ : Type} [DecidableEq κ] (key : α → κ)

/-- Does some row of l have key k. -/
def keyMem (k : κ) (l : List α) : Bool := l.any fun y => decide (key y = k)

/-- drop_duplicates(subset=keys, keep="last"): keep, in order, each row
whose key does not occur again later. -/
def dedupeKeepLast : List α → List α
  | [] => []
  | x :: xs =>
    if keyMem key (key x) xs then dedupeKeepLast xs
    else x :: dedupeKeepLast xs

/-- append_dedupe of the script: when the parquet file exists, read it,
concat old then new, drop duplicate keys keeping the last occurrence;
when it does not exist the new table is written unchanged. -/
def append_dedupe (existing : Option (List α)) (new : List α) : List α :=
  match existing with
  | some old => dedupeKeepLast key (old ++ new)
  | none => new

end Dedupe

/-! ### Tables as untyped rows, for the key-column form of the merge -/

inductive Val where
  | i : Int → Val
  | s : String → Val
deriving DecidableEq, Repr

/-- A row of a persisted table: column name to value. -/
abbrev TableRow := List (String × Val)

/-- The tuple of values of the key columns (none when a column is absent),
the comparison drop_duplicates makes for subset=ks. -/
def rowKey (ks : List String) (r : TableRow) : List (Option Val) :=
  ks.map fun c => (r.find? fun p => decide (p.1 = c)).map Prod.snd

/-! ### Column names: what the Aggregator writes, what the dashboards read -/

/-- Columns of cys_2021 as written to country_year_summary.parquet. -/
def cysCols : List String :=
  ["region", "year", "chart_rows", "unique_tracks", "unique_artists",
   "total_streams", "avg_streams"]

/-- Columns of tt_2021 as written to top_tracks_country_year_top500.parquet
(url is the track_key column). -/
def ttCols : List String :=
  ["region", "year", "url", "title", "artist", "streams", "best_rank",
   "days_on_chart", "rank_year"]

/-- Columns of ay_2021 as written to artist_country_year_top200.parquet. -/
def ayCols : List String :=
  ["region", "year", "artist", "streams", "track_count", "days_on_chart",
   "best_rank", "rank_year"]

/-- Columns app.py reads from country_year_summary.parquet. -/
def appCysReads : List String :=
  ["year", "iso3", "country", "total_streams", "unique_artists",
   "unique_tracks", "avg_rank"]

/-- Columns app.py reads from top_tracks_country_year_top500.parquet. -/
def appTTReads : List String :=
  ["year", "country", "streams_sum", "track_name", "artist_name",
   "best_rank", "days_charted"]

/-- Columns app.py reads from artist_country_year_top200.parquet. -/
def appAYReads : List String :=
  ["year", "artist_name", "streams_sum", "country"]

/-- Columns Shiny_migration/app.py reads from country_year_summary.parquet. -/
def shinyCysReads : List String :=
  ["year", "iso3", "country", "total_streams", "unique_artists",
   "unique_tracks", "avg_rank"]

/-- Columns Shiny_migration/app.py reads from
top_tracks_country_year_top500.parquet. -/
def shinyTTReads : List String :=
  ["country", "year", "streams_sum", "track_name", "artist_name",
   "best_rank", "days_charted"]

/-- Columns Shiny_migration/app.py reads from
artist_country_year_top200.parquet. -/
def shinyAYReads : List String :=
  ["artist_name", "streams_sum", "country", "year"]

/-! ### Concrete rows used by the merge claims -/

/-- The existing row of the merge example in the spec. -/
def rowUS500 : TableRow :=
  [("region", Val.s "US"), ("year", Val.i 2020), ("total_streams", Val.i 500)]

/-- The first new row of the merge example in the spec. -/
def rowUS600 : TableRow :=
  [("region", Val.s "US"), ("year", Val.i 2020), ("total_streams", Val.i 600)]

/-- The second new row of the merge example in the spec. -/
def rowFR20 : TableRow :=
  [("region", Val.s "FR"), ("year", Val.i 2020), ("total_streams", Val.i 20)]

/-- A row with key column k equal to 1 and payload 1. -/
def rowKV1 : TableRow := [("k", Val.i 1), ("v", Val.i 1)]

/-- A second row with the same key column value but payload 2. -/
def rowKV2 : TableRow := [("k", Val.i 1), ("v", Val.i 2)]

/-- The Bool predicate selecting the (region, year) group of a ranked
table entry. -/
def inRY {β : Type} (reg : β → String) (yr : β → Int) (r : String) (y : Int)
    (x : β) : Bool :=
  decide (reg x = r ∧ yr x = y)

/-! ### Concrete rows used by witnesses and counterexamples -/

/-- A cleaned chart row: region US, rank 1, streams 7, track url b. -/
def wrow1 : ChartRow := ⟨⟨2021, 1⟩, "US", "top200", 1, some 7, "t1", "a1", some "b", 2021⟩

/-- A cleaned chart row: region US, rank 2, streams 7, track url a. -/
def wrow2 : ChartRow := ⟨⟨2021, 2⟩, "US", "top200", 2, some 7, "t2", "a2", some "a", 2021⟩

/-- A cleaned chart row with distinct streams 9, region US, url c. -/
def wrow3 : ChartRow := ⟨⟨2021, 3⟩, "US", "top200", 3, some 9, "t3", "a3", some "c", 2021⟩

/-- The grouped top-tracks entry of wrow2. -/
def wTTA : TTAgg := ⟨"US", 2021, "a", "t2", "a2", 7, 2, 1⟩

/-- The grouped top-tracks entry of wrow1. -/
def wTTB : TTAgg := ⟨"US", 2021, "b", "t1", "a1", 7, 1, 1⟩

/-- The grouped top-tracks entry of wrow3. -/
def wTTC : TTAgg := ⟨"US", 2021, "c", "t3", "a3", 9, 3, 1⟩

/-- The grouped artists entry of wrow1. -/
def wAYA : AYAgg := ⟨"US", 2021, "a1", 7, 1, 1, 1⟩

/-- The grouped artists entry of wrow2. -/
def wAYB : AYAgg := ⟨"US", 2021, "a2", 7, 1, 1, 2⟩

/-- The grouped artists entry of wrow3. -/
def wAYC : AYAgg := ⟨"US", 2021, "a3", 9, 1, 1, 3⟩

/-- A cleaned row whose url cell is missing. -/
def rNoUrl : ChartRow := ⟨⟨2021, 1⟩, "US", "top200", 1, some 5, "TitleX", "aX", none, 2021⟩

/-- A cleaned row of a region whose rows all lack streams. -/
def rNoStream : ChartRow := ⟨⟨2021, 1⟩, "ZZ", "top200", 5, none, "tz", "az", some "uz", 2021⟩

/-- A raw row with an unparseable date. -/
def rawBad : RawRow := ⟨none, some "US", some "top200", some 1, some 5, "tb", "ab", some "ub"⟩

/-- A raw row passing every check; chart written Top200 to exercise the
lowercase comparison. -/
def rawGood : RawRow :=
  ⟨some ⟨2021, 3⟩, some "US", some "Top200", some 4, some 9, "tw", "aw", some "uw"⟩

/-- Modelled from the claim reading of the spec: the per-row track
identifier, the url cell when present, otherwise the title. -/
def trackKeySpec (r : ChartRow) : String := r.url.getD r.title

/-- Modelled from the claim reading of the spec: unique_tracks as the
count of distinct per-row url-or-title identifiers within a group. -/
def unique_tracks_spec (rows : List ChartRow) (k : String × Int) : Nat :=
  ((rows.filter fun r => decide (cysKeyOf r = k)).map trackKeySpec).dedup.length

/-! ### Lemmas about dedupeKeepLast -/

section DedupeLemmas

variable {α κ : Type} [DecidableEq κ] (key : α → κ)

theorem keyMem_iff {k : κ} {l : List α} :
    keyMem key k l = true ↔ ∃ y ∈ l, key y = k := by
  simp [keyMem, List.any_eq_true]

theorem keyMem_append {k : κ} {l₁ l₂ : List α} :
    keyMem key k (l₁ ++ l₂) = (keyMem key k l₁ || keyMem key k l₂) := by
  simp [keyMem, List.any_append]

theorem keyMem_cons {k : κ} {x : α} {l : List α} :
    keyMem key k (x :: l) = (decide (key x = k) || keyMem key k l) := by
  simp [keyMem]

theorem dedupe_sublist : ∀ l : List α, List.Sublist (dedupeKeepLast key l) l
  | [] => List.Sublist.refl _
  | x :: xs => by
    rw [dedupeKeepLast]
    cases h : keyMem key (key x) xs
    · rw [if_neg (by decide)]
      exact (dedupe_sublist xs).cons₂ x
    · rw [if_pos rfl]
      exact (dedupe_sublist xs).cons x

theorem keyMem_dedupe (k : κ) : ∀ l : List α,
    keyMem key k (dedupeKeepLast key l) = keyMem key k l
  | [] => rfl
  | x :: xs => by
    rw [dedupeKeepLast]
    cases h : keyMem key (key x) xs
    · rw [if_neg (by decide), keyMem_cons, keyMem_cons, keyMem_dedupe k xs]
    · rw [if_pos rfl, keyMem_dedupe k xs, keyMem_cons]
      cases hk : decide (key x = k)
      · rw [Bool.false_or]
      · rw [Bool.true_or]
        obtain ⟨y, hy, hky⟩ := (keyMem_iff key).mp h
        exact (keyMem_iff key).mpr ⟨y, hy, hky.trans (of_decide_eq_true hk)⟩

theorem nodup_keys_dedupe : ∀ l : List α, ((dedupeKeepLast key l).map key).Nodup
  | [] => List.nodup_nil
  | x :: xs => by
    rw [dedupeKeepLast]
    cases h : keyMem key (key x) xs
    · rw [if_neg (by decide), List.map_cons, List.nodup_cons]
      refine ⟨fun hmem => ?_, nodup_keys_dedupe xs⟩
      obtain ⟨y, hy, hky⟩ := List.mem_map.mp hmem
      have htrue := (keyMem_iff key).mpr ⟨y, (dedupe_sublist key xs).mem hy, hky⟩
      rw [h] at htrue
      exact Bool.false_ne_true htrue
    · rw [if_pos rfl]
      exact nodup_keys_dedupe xs

theorem dedupe_eq_self : ∀ l : List α, (l.map key).Nodup → dedupeKeepLast key l = l
  | [], _ => rfl
  | x :: xs, h => by
    rw [List.map_cons, List.nodup_cons] at h
    rw [dedupeKeepLast, if_neg, dedupe_eq_self xs h.2]
    intro hmem
    obtain ⟨y, hy, hky⟩ := (keyMem_iff key).mp hmem
    exact h.1 (List.mem_map.mpr ⟨y, hy, hky⟩)

theorem dedupe_idem (l : List α) :
    dedupeKeepLast key (dedupeKeepLast key l) = dedupeKeepLast key l :=
  dedupe_eq_self key _ (nodup_keys_dedupe key l)

theorem dedupe_append : ∀ l₁ l₂ : List α,
    dedupeKeepLast key (l₁ ++ l₂) =
      (dedupeKeepLast key l₁).filter (fun x => !keyMem key (key x) l₂) ++
        dedupeKeepLast key l₂
  | [], l₂ => by simp [dedupeKeepLast]
  | x :: l₁, l₂ => by
    rw [List.cons_append, dedupeKeepLast, dedupeKeepLast, keyMem_append]
    cases h₁ : keyMem key (key x) l₁
    · cases h₂ : keyMem key (key x) l₂
      · rw [if_neg (by decide), if_neg (by decide), dedupe_append l₁ l₂,
          List.filter_cons_of_pos (by simp [h₂]), List.cons_append]
      · rw [if_pos (by decide), if_neg (by decide), dedupe_append l₁ l₂,
          List.filter_cons_of_neg (by simp [h₂])]
    · rw [if_pos (Bool.true_or _), if_pos rfl, dedupe_append l₁ l₂]

theorem keyMem_eq_false_filter_nil {k : κ} {l : List α}
    (h : keyMem key k l = false) : l.filter (fun r => decide (key r = k)) = [] := by
  rw [List.filter_eq_nil_iff]
  intro a ha
  simp only [decide_eq_true_eq]
  intro hk
  have htrue := (keyMem_iff key).mpr ⟨a, ha, hk⟩
  rw [h] at htrue
  exact Bool.false_ne_true htrue

theorem dedupe_filter_key (k : κ) : ∀ l : List α,
    (dedupeKeepLast key l).filter (fun r => decide (key r = k)) =
      ((l.filter (fun r => decide (key r = k))).getLast?).toList
  | [] => rfl
  | x :: xs => by
    rw [dedupeKeepLast]
    cases h : keyMem key (key x) xs
    · rw [if_neg (by decide)]
      by_cases hk : key x = k
      · subst hk
        rw [List.filter_cons_of_pos (by simp), List.filter_cons_of_pos (by simp),
          dedupe_filter_key _ xs, keyMem_eq_false_filter_nil key h]
        rfl
      · rw [List.filter_cons_of_neg (by simp [hk]), List.filter_cons_of_neg (by simp [hk]),
          dedupe_filter_key _ xs]
    · rw [if_pos rfl]
      by_cases hk : key x = k
      · subst hk
        have hpx : (fun r => decide (key r = key x)) x = true := by simp
        rw [List.filter_cons, if_pos hpx, dedupe_filter_key _ xs]
        obtain ⟨y, hy, hky⟩ := (keyMem_iff key).mp h
        have hne : xs.filter (fun r => decide (key r = key x)) ≠ [] := by
          intro hnil
          have hmem : y ∈ xs.filter (fun r => decide (key r = key x)) :=
            List.mem_filter.mpr ⟨hy, decide_eq_true hky⟩
          rw [hnil] at hmem
          exact List.not_mem_nil y hmem
        obtain ⟨z, zs, hz⟩ := List.exists_cons_of_ne_nil hne
        rw [hz, List.getLast?_cons_cons]
      · rw [List.filter_cons_of_neg (by simp [hk]), dedupe_filter_key _ xs]

theorem filter_not_keyMem_self (l : List α) :
    (dedupeKeepLast key l).filter (fun x => !keyMem key (key x) l) = [] := by
  rw [List.filter_eq_nil_iff]
  intro a ha
  rw [(keyMem_iff key).mpr ⟨a, (dedupe_sublist key l).mem ha, rfl⟩]
  decide

theorem merge_idem_of_present (old new : List α) :
    dedupeKeepLast key (dedupeKeepLast key (old ++ new) ++ new) =
      dedupeKeepLast key (old ++ new) := by
  have hR : dedupeKeepLast key (old ++ new) =
      (dedupeKeepLast key old).filter (fun x => !keyMem key (key x) new) ++
        dedupeKeepLast key new := dedupe_append key old new
  rw [dedupe_append key _ new, dedupe_idem key, hR, List.filter_append,
    List.filter_filter, filter_not_keyMem_self key new]
  simp only [List.append_nil]
  congr 1
  apply List.filter_congr
  intro x _
  rw [Bool.and_self]

end DedupeLemmas

/-- C1 (amended): with no existing table the merge returns the new rows
unchanged. Otherwise the result is a subsequence of existing followed by
new, and for every key tuple it keeps exactly the last row of
existing ++ new with that key. Consequently every row of new appears in
the result when the keys of new are pairwise distinct; a row of existing
whose key does not occur in new appears unchanged when the keys of
existing are pairwise distinct; and every result row whose key occurs in
new is itself a row of new (so no key maps to a dropped old payload). -/
theorem merge_append_characterization (ks : List String) (old new : List TableRow) :
    append_dedupe (rowKey ks) none new = new ∧
    List.Sublist (append_dedupe (rowKey ks) (some old) new) (old ++ new) ∧
    (∀ k, (append_dedupe (rowKey ks) (some old) new).filter
        (fun r => decide (rowKey ks r = k)) =
      (((old ++ new).filter (fun r => decide (rowKey ks r = k))).getLast?).toList) ∧
    ((new.map (rowKey ks)).Nodup → ∀ r ∈ new,
      r ∈ append_dedupe (rowKey ks) (some old) new) ∧
    ((old.map (rowKey ks)).Nodup → ∀ r ∈ old,
      keyMem (rowKey ks) (rowKey ks r) new = false →
        r ∈ append_dedupe (rowKey ks) (some old) new) ∧
    (∀ r ∈ append_dedupe (rowKey ks) (some old) new,
      keyMem (rowKey ks) (rowKey ks r) new = true → r ∈ new) := by
  refine ⟨rfl, dedupe_sublist _ _, fun k => dedupe_filter_key (rowKey ks) k (old ++ new), ?_, ?_, ?_⟩
  · intro hnd r hr
    show r ∈ dedupeKeepLast (rowKey ks) (old ++ new)
    rw [dedupe_append, dedupe_eq_self _ _ hnd]
    exact List.mem_append_right _ hr
  · intro hnd r hr hkm
    show r ∈ dedupeKeepLast (rowKey ks) (old ++ new)
    rw [dedupe_append, dedupe_eq_self _ _ hnd]
    exact List.mem_append_left _ (List.mem_filter.mpr ⟨hr, by simp [hkm]⟩)
  · intro r hr hkm
    have hr' : r ∈ dedupeKeepLast (rowKey ks) (old ++ new) := hr
    rw [dedupe_append] at hr'
    rcases List.mem_append.mp hr' with hl | hrr
    · have := (List.mem_filter.mp hl).2
      rw [hkm] at this
      exact absurd this (by decide)
    · exact (dedupe_sublist _ _).mem hrr

/-- C1 counterexample: when the new rows repeat a key, a row of new is
absent from the merged result, contradicting the unqualified claim that
every row of new appears. -/
theorem merge_append_new_row_lost :
    ¬ (∀ r ∈ [rowKV1, rowKV2],
        r ∈ append_dedupe (rowKey ["k"]) (some [rowUS500]) [rowKV1, rowKV2]) := by
  decide

/-- C1 witness: the merge example of the spec, existing US row 500,
new rows US 600 and FR 20, keys region and year: the merged result is
exactly new US then FR, the old US row is gone, and each part of the
characterization applies. -/
theorem merge_append_characterization_witness :
    append_dedupe (rowKey ["region", "year"]) (some [rowUS500]) [rowUS600, rowFR20] =
      [rowUS600, rowFR20] ∧
    rowUS600 ∈ append_dedupe (rowKey ["region", "year"]) (some [rowUS500])
      [rowUS600, rowFR20] ∧
    rowFR20 ∈ append_dedupe (rowKey ["region", "year"]) (some [rowUS500])
      [rowUS600, rowFR20] := by
  refine ⟨by decide, ?_, ?_⟩
  · exact (merge_append_characterization ["region", "year"] [rowUS500]
      [rowUS600, rowFR20]).2.2.2.1 (by decide) rowUS600 (by decide)
  · exact (merge_append_characterization ["region", "year"] [rowUS500]
      [rowUS600, rowFR20]).2.2.2.1 (by decide) rowFR20 (by decide)

/-- C2 (amended): merging the same new rows twice equals merging them
once whenever an existing table is present, for every existing table,
new table and key list; when no existing table is present the first
merge writes new unchanged (without dedup), and idempotence holds there
provided the keys of new are pairwise distinct. -/
theorem merge_append_idempotent (ks : List String) (old new : List TableRow) :
    append_dedupe (rowKey ks) (some (append_dedupe (rowKey ks) (some old) new)) new =
      append_dedupe (rowKey ks) (some old) new ∧
    ((new.map (rowKey ks)).Nodup →
      append_dedupe (rowKey ks) (some (append_dedupe (rowKey ks) none new)) new =
        append_dedupe (rowKey ks) none new) := by
  constructor
  · exact merge_idem_of_present _ old new
  · intro hnd
    show dedupeKeepLast (rowKey ks) (new ++ new) = new
    rw [dedupe_append, filter_not_keyMem_self, dedupe_eq_self _ _ hnd, List.nil_append]

/-- C2 counterexample: with no existing table and new rows that repeat a
key, the first merge returns both rows and the second collapses them, so
the merge is not idempotent on all inputs. -/
theorem merge_append_not_idempotent_when_absent :
    append_dedupe (rowKey ["k"]) (some (append_dedupe (rowKey ["k"]) none [rowKV1, rowKV2]))
        [rowKV1, rowKV2] ≠
      append_dedupe (rowKey ["k"]) none [rowKV1, rowKV2] := by
  decide

/-- C2 witness: idempotence at the merge example of the spec, in both the
existing-table case and the distinct-keys absent case. -/
theorem merge_append_idempotent_witness :
    append_dedupe (rowKey ["region", "year"])
        (some (append_dedupe (rowKey ["region", "year"]) (some [rowUS500])
          [rowUS600, rowFR20])) [rowUS600, rowFR20] =
      append_dedupe (rowKey ["region", "year"]) (some [rowUS500]) [rowUS600, rowFR20] ∧
    append_dedupe (rowKey ["region", "year"])
        (some (append_dedupe (rowKey ["region", "year"]) none [rowUS600, rowFR20]))
        [rowUS600, rowFR20] =
      append_dedupe (rowKey ["region", "year"]) none [rowUS600, rowFR20] :=
  ⟨(merge_append_idempotent ["region", "year"] [rowUS500] [rowUS600, rowFR20]).1,
    (merge_append_idempotent ["region", "year"] [rowUS500] [rowUS600, rowFR20]).2 (by decide)⟩

/-- C3 (amended): when an existing table is present, the key tuples of the
merged result are pairwise distinct, for every existing table, new table
and key list; when no existing table is present the result is new
unchanged, so its keys are unique only when new already had unique keys. -/
theorem merge_append_keys_unique (ks : List String) (old new : List TableRow) :
    ((append_dedupe (rowKey ks) (some old) new).map (rowKey ks)).Nodup ∧
    append_dedupe (rowKey ks) none new = new :=
  ⟨nodup_keys_dedupe _ _, rfl⟩

/-- C3 counterexample: with no existing table and new rows repeating a
key, the result (new unchanged) has a duplicate key, contradicting the
claim that the merged result always has unique keys. -/
theorem merge_append_keys_not_unique_when_absent :
    ¬ ((append_dedupe (rowKey ["k"]) none [rowKV1, rowKV2]).map (rowKey ["k"])).Nodup := by
  decide

/-! ### Order facts about the string comparison -/

theorem charsLT_irrefl : ∀ as, charsLT as as = false
  | [] => rfl
  | _ :: as => by simp [charsLT, charsLT_irrefl as]

theorem charsLT_trans : ∀ {as bs cs}, charsLT as bs = true → charsLT bs cs = true →
    charsLT as cs = true
  | [], _ :: _, _ :: _, _, _ => rfl
  | _ :: _, _ :: _, _ :: _, h₁, h₂ => by
    simp only [charsLT, Bool.or_eq_true, Bool.and_eq_true, decide_eq_true_eq] at *
    rcases h₁ with h₁ | ⟨e₁, h₁⟩ <;> rcases h₂ with h₂ | ⟨e₂, h₂⟩
    · exact Or.inl (h₁.trans h₂)
    · exact Or.inl (e₂ ▸ h₁)
    · exact Or.inl (e₁ ▸ h₂)
    · exact Or.inr ⟨e₁.trans e₂, charsLT_trans h₁ h₂⟩

theorem charsLT_total : ∀ as bs, charsLT as bs = true ∨ charsLT bs as = true ∨ as = bs
  | [], [] => Or.inr (Or.inr rfl)
  | [], _ :: _ => Or.inl rfl
  | _ :: _, [] => Or.inr (Or.inl rfl)
  | a :: as, b :: bs => by
    simp only [charsLT, Bool.or_eq_true, Bool.and_eq_true, decide_eq_true_eq]
    rcases lt_trichotomy a b with h | h | h
    · exact Or.inl (Or.inl h)
    · rcases charsLT_total as bs with h' | h' | h'
      · exact Or.inl (Or.inr ⟨h, h'⟩)
      · exact Or.inr (Or.inl (Or.inr ⟨h.symm, h'⟩))
      · exact Or.inr (Or.inr (by rw [h, h']))
    · exact Or.inr (Or.inl (Or.inl h))

theorem strLT_trans {a b c : String} (h₁ : strLT a b = true) (h₂ : strLT b c = true) :
    strLT a c = true := charsLT_trans h₁ h₂

theorem strLT_total (a b : String) : strLT a b = true ∨ strLT b a = true ∨ a = b := by
  rcases charsLT_total a.data b.data with h | h | h
  · exact Or.inl h
  · exact Or.inr (Or.inl h)
  · exact Or.inr (Or.inr (congrArg String.mk h))

theorem strLT_irrefl (a : String) : strLT a a = false := charsLT_irrefl a.data

/-! ### Generic list lemmas -/

theorem filter_map_comm {γ δ : Type} (f : γ → δ) (q : δ → Bool) :
    ∀ L : List γ, (L.filter fun x => q (f x)).map f = (L.map f).filter q
  | [] => rfl
  | x :: L => by
    cases h : q (f x) <;>
      simp [List.filter_cons, h, filter_map_comm f q L]

theorem zip_fst_snd {γ δ : Type} : ∀ L : List (γ × δ),
    (L.map Prod.fst).zip (L.map Prod.snd) = L
  | [] => rfl
  | p :: L => by
    rw [List.map_cons, List.map_cons, List.zip_cons_cons, zip_fst_snd L]

theorem range'_filter_le : ∀ n lim : Nat,
    (List.range' 1 n).filter (fun k => decide (k ≤ lim)) = List.range' 1 (min n lim)
  | 0, lim => by simp
  | n + 1, lim => by
    rw [List.range'_1_concat, List.filter_append, range'_filter_le n lim]
    by_cases h : 1 + n ≤ lim
    · rw [List.filter_cons_of_pos (by simpa using h), List.filter_nil,
        show min n lim = n from by omega, show min (n + 1) lim = n + 1 from by omega,
        List.range'_1_concat]
    · rw [List.filter_cons_of_neg (by simpa using h), List.filter_nil, List.append_nil,
        show min n lim = lim from by omega, show min (n + 1) lim = lim from by omega]

theorem zip_range'_lt {γ : Type} {a b : γ} {ka kb : Nat} :
    ∀ (L : List γ) (m : Nat), L.Nodup → List.Sublist [a, b] L →
      (a, ka) ∈ L.zip (List.range' m L.length) →
      (b, kb) ∈ L.zip (List.range' m L.length) → ka < kb
  | [], _, _, hsub, _, _ => by cases hsub
  | x :: L, m, hnd, hsub, ha, hb => by
    rw [List.length_cons, List.range'_succ, List.zip_cons_cons] at ha hb
    rw [List.nodup_cons] at hnd
    cases hsub with
    | cons _ h' =>
      have haL : a ∈ L := h'.subset (by simp)
      have hbL : b ∈ L := h'.subset (by simp)
      rcases List.mem_cons.mp ha with hh | ht
      · rw [Prod.mk.injEq] at hh
        exact absurd (hh.1 ▸ haL) hnd.1
      rcases List.mem_cons.mp hb with hh2 | ht2
      · rw [Prod.mk.injEq] at hh2
        exact absurd (hh2.1 ▸ hbL) hnd.1
      exact zip_range'_lt L (m + 1) hnd.2 h' ht ht2
    | cons₂ _ h' =>
      have hbL : b ∈ L := h'.subset (by simp)
      rcases List.mem_cons.mp ha with hh | ht
      · rw [Prod.mk.injEq] at hh
        rcases List.mem_cons.mp hb with hh2 | ht2
        · rw [Prod.mk.injEq] at hh2
          exact absurd (hh2.1 ▸ hbL) hnd.1
        · have hkb : kb ∈ List.range' (m + 1) L.length := (List.of_mem_zip ht2).2
          rw [List.mem_range'] at hkb
          obtain ⟨i, -, hi⟩ := hkb
          omega
      · exact absurd (List.of_mem_zip ht).1 hnd.1

theorem zip_range'_rel {γ : Type} (R : γ → γ → Prop) {a b : γ} {ka kb : Nat} :
    ∀ (L : List γ) (m : Nat), L.Pairwise R →
      (a, ka) ∈ L.zip (List.range' m L.length) →
      (b, kb) ∈ L.zip (List.range' m L.length) → ka < kb → R a b
  | [], _, _, ha, _, _ => by cases ha
  | x :: L, m, hp, ha, hb, hlt => by
    rw [List.length_cons, List.range'_succ, List.zip_cons_cons] at ha hb
    rw [List.pairwise_cons] at hp
    rcases List.mem_cons.mp ha with hh | ht
    · rw [Prod.mk.injEq] at hh
      rcases List.mem_cons.mp hb with hh2 | ht2
      · rw [Prod.mk.injEq] at hh2
        omega
      · exact hh.1 ▸ hp.1 b (List.of_mem_zip ht2).1
    · rcases List.mem_cons.mp hb with hh2 | ht2
      · rw [Prod.mk.injEq] at hh2
        have hka : ka ∈ List.range' (m + 1) L.length := (List.of_mem_zip ht).2
        rw [List.mem_range'] at hka
        obtain ⟨i, -, hi⟩ := hka
        omega
      · exact zip_range'_rel R L (m + 1) hp.2 ht ht2 hlt

theorem zip_range'_unique {γ : Type} {a : γ} {ka kb : Nat} :
    ∀ (L : List γ) (m : Nat), L.Nodup →
      (a, ka) ∈ L.zip (List.range' m L.length) →
      (a, kb) ∈ L.zip (List.range' m L.length) → ka = kb
  | [], _, _, ha, _ => by cases ha
  | x :: L, m, hnd, ha, hb => by
    rw [List.length_cons, List.range'_succ, List.zip_cons_cons] at ha hb
    rw [List.nodup_cons] at hnd
    rcases List.mem_cons.mp ha with hh | ht
    · rw [Prod.mk.injEq] at hh
      rcases List.mem_cons.mp hb with hh2 | ht2
      · rw [Prod.mk.injEq] at hh2
        omega
      · exact absurd (hh.1 ▸ (List.of_mem_zip ht2).1) hnd.1
    · rcases List.mem_cons.mp hb with hh2 | ht2
      · rw [Prod.mk.injEq] at hh2
        exact absurd (hh2.1 ▸ (List.of_mem_zip ht).1) hnd.1
      · exact zip_range'_unique L (m + 1) hnd.2 ht ht2

/-! ### The stable sort wrapper -/

theorem sortByB_perm {α : Type} (le : α → α → Bool) (l : List α) :
    List.Perm (sortByB le l) l :=
  @List.perm_insertionSort α (fun a b => le a b = true)
    (fun a b => instDecidableEqBool (le a b) true) l

theorem sortByB_sorted {α : Type} (le : α → α → Bool)
    (htrans : ∀ a b c, le a b = true → le b c = true → le a c = true)
    (htotal : ∀ a b, le a b = true ∨ le b a = true) (l : List α) :
    List.Pairwise (fun a b => le a b = true) (sortByB le l) := by
  haveI : IsTotal α (fun a b => le a b = true) := ⟨htotal⟩
  haveI : IsTrans α (fun a b => le a b = true) := ⟨htrans⟩
  exact @List.sorted_insertionSort α (fun a b => le a b = true)
    (fun a b => instDecidableEqBool (le a b) true) _ _ l

theorem sortByB_pair_sublist {α : Type} (le : α → α → Bool) {a b : α} {l : List α}
    (hab : le a b = true) (h : List.Sublist [a, b] l) :
    List.Sublist [a, b] (sortByB le l) :=
  @List.pair_sublist_insertionSort α (fun x y => le x y = true)
    (fun x y => instDecidableEqBool (le x y) true) a b l hab h

/-! ### Properties of the ranking pipeline -/

section RankLemmas

variable {β : Type} (reg : β → String) (yr : β → Int) (st : β → Int)

theorem rankLE_iff {a b : β} :
    rankLE reg yr st a b = true ↔
      (strLT (reg a) (reg b) = true ∨ (reg a = reg b ∧
        (yr a < yr b ∨ (yr a = yr b ∧ st b ≤ st a)))) := by
  simp [rankLE, Bool.or_eq_true, Bool.and_eq_true, decide_eq_true_eq]

theorem rankLE_trans (a b c : β) (h₁ : rankLE reg yr st a b = true)
    (h₂ : rankLE reg yr st b c = true) : rankLE reg yr st a c = true := by
  rw [rankLE_iff] at h₁ h₂ ⊢
  rcases h₁ with h₁ | ⟨e₁, h₁⟩ <;> rcases h₂ with h₂ | ⟨e₂, h₂⟩
  · exact Or.inl (strLT_trans h₁ h₂)
  · exact Or.inl (e₂ ▸ h₁)
  · exact Or.inl (e₁ ▸ h₂)
  · refine Or.inr ⟨e₁.trans e₂, ?_⟩
    rcases h₁ with h₁ | ⟨f₁, h₁⟩ <;> rcases h₂ with h₂ | ⟨f₂, h₂⟩
    · exact Or.inl (h₁.trans h₂)
    · exact Or.inl (f₂ ▸ h₁)
    · exact Or.inl (f₁ ▸ h₂)
    · exact Or.inr ⟨f₁.trans f₂, h₂.trans h₁⟩

theorem rankLE_total (a b : β) :
    rankLE reg yr st a b = true ∨ rankLE reg yr st b a = true := by
  rw [rankLE_iff, rankLE_iff]
  rcases strLT_total (reg a) (reg b) with h | h | h
  · exact Or.inl (Or.inl h)
  · exact Or.inr (Or.inl h)
  · rcases lt_trichotomy (yr a) (yr b) with hy | hy | hy
    · exact Or.inl (Or.inr ⟨h, Or.inl hy⟩)
    · rcases le_total (st b) (st a) with hs | hs
      · exact Or.inl (Or.inr ⟨h, Or.inr ⟨hy, hs⟩⟩)
      · exact Or.inr (Or.inr ⟨h.symm, Or.inr ⟨hy.symm, hs⟩⟩)
    · exact Or.inr (Or.inr ⟨h.symm, Or.inl hy⟩)

theorem rankLE_group {a b : β} (hr : reg a = reg b) (hy : yr a = yr b) :
    rankLE reg yr st a b = true ↔ st b ≤ st a := by
  rw [rankLE_iff]
  constructor
  · rintro (h | ⟨-, h | ⟨-, h⟩⟩)
    · rw [hr] at h
      exact absurd h (by rw [strLT_irrefl]; decide)
    · exact absurd h (hy ▸ lt_irrefl _)
    · exact h
  · intro h
    exact Or.inr ⟨hr, Or.inr ⟨hy, h⟩⟩

theorem cumAux_map_fst : ∀ (seen l : List β),
    (cumAux reg yr seen l).map Prod.fst = l
  | _, [] => rfl
  | seen, x :: xs => by
    rw [cumAux, List.map_cons, cumAux_map_fst (seen ++ [x]) xs]

theorem cumAux_filter_group (r : String) (y : Int) : ∀ (seen l : List β),
    ((cumAux reg yr seen l).filter (fun p => inRY reg yr r y p.1)).map Prod.snd =
      List.range' ((seen.filter (inRY reg yr r y)).length + 1)
        ((l.filter (inRY reg yr r y)).length)
  | seen, [] => by simp [cumAux]
  | seen, x :: xs => by
    by_cases hx : inRY reg yr r y x = true
    · obtain ⟨hxr, hxy⟩ : reg x = r ∧ yr x = y := by simpa [inRY] using hx
      have hfun : (fun z => decide (reg z = reg x ∧ yr z = yr x)) = inRY reg yr r y := by
        funext z
        simp only [inRY, hxr, hxy]
      rw [show cumAux reg yr seen (x :: xs) =
          (x, (seen.filter (inRY reg yr r y)).length + 1) ::
            cumAux reg yr (seen ++ [x]) xs from by rw [cumAux, hfun]]
      rw [@List.filter_cons_of_pos _ (fun p => inRY reg yr r y p.1)
        (x, (seen.filter (inRY reg yr r y)).length + 1)
        (cumAux reg yr (seen ++ [x]) xs) hx]
      have IH := cumAux_filter_group r y (seen ++ [x]) xs
      have hlen : ((seen ++ [x]).filter (inRY reg yr r y)).length =
          (seen.filter (inRY reg yr r y)).length + 1 := by
        rw [List.filter_append, List.filter_cons_of_pos hx, List.filter_nil]
        simp
      rw [hlen] at IH
      rw [List.map_cons, IH, List.filter_cons_of_pos hx, List.length_cons,
        List.range'_succ]
    · have hx' : inRY reg yr r y x = false := by
        cases h : inRY reg yr r y x
        · rfl
        · exact absurd h hx
      rw [cumAux]
      rw [@List.filter_cons_of_neg _ (fun p => inRY reg yr r y p.1)
        (x, (seen.filter fun z => decide (reg z = reg x ∧ yr z = yr x)).length + 1)
        (cumAux reg yr (seen ++ [x]) xs) (by simp [hx'])]
      have IH := cumAux_filter_group r y (seen ++ [x]) xs
      have hlen : ((seen ++ [x]).filter (inRY reg yr r y)).length =
          (seen.filter (inRY reg yr r y)).length := by
        rw [List.filter_append, List.filter_cons_of_neg (by simp [hx']),
          List.filter_nil, List.append_nil]
      rw [hlen] at IH
      rw [IH, List.filter_cons_of_neg (by simp [hx'])]

theorem rankStep_group_zip (l : List β) (r : String) (y : Int) :
    (rankStep reg yr st l).filter (fun p => inRY reg yr r y p.1) =
      ((sortStep reg yr st l).filter (inRY reg yr r y)).zip
        (List.range' 1 ((sortStep reg yr st l).filter (inRY reg yr r y)).length) := by
  have h1 : ((rankStep reg yr st l).filter (fun p => inRY reg yr r y p.1)).map Prod.fst =
      (sortStep reg yr st l).filter (inRY reg yr r y) := by
    rw [filter_map_comm Prod.fst (inRY reg yr r y), rankStep, cumAux_map_fst]
  have h2 : ((rankStep reg yr st l).filter (fun p => inRY reg yr r y p.1)).map Prod.snd =
      List.range' 1 ((sortStep reg yr st l).filter (inRY reg yr r y)).length := by
    rw [rankStep, cumAux_filter_group]
    simp
  rw [← h2, ← h1, zip_fst_snd]

theorem sortStep_sorted (l : List β) :
    List.Pairwise (fun a b => rankLE reg yr st a b = true) (sortStep reg yr st l) :=
  sortByB_sorted _ (rankLE_trans reg yr st) (rankLE_total reg yr st) l

theorem sortStep_perm (l : List β) : List.Perm (sortStep reg yr st l) l :=
  sortByB_perm _ l

theorem rank_output_ranks (l : List β) (r : String) (y : Int) (lim : Nat) :
    ((truncStep lim (rankStep reg yr st l)).filter
        (fun p => inRY reg yr r y p.1)).map Prod.snd =
      List.range' 1 (min ((l.filter (inRY reg yr r y)).length) lim) := by
  simp only [truncStep]
  rw [List.filter_comm, rankStep_group_zip,
    filter_map_comm Prod.snd (fun k => decide (k ≤ lim)),
    List.map_snd_zip _ _ (by simp), range'_filter_le]
  have hlen : ((sortStep reg yr st l).filter (inRY reg yr r y)).length =
      (l.filter (inRY reg yr r y)).length :=
    ((sortStep_perm reg yr st l).filter _).length_eq
  rw [hlen]

theorem rank_streams_desc (l : List β) (r : String) (y : Int)
    (hst : ((l.filter (inRY reg yr r y)).map st).Nodup) {p q : β × Nat}
    (hp : p ∈ rankStep reg yr st l)
    (hpg : inRY reg yr r y p.1 = true)
    (hq : q ∈ rankStep reg yr st l)
    (hqg : inRY reg yr r y q.1 = true)
    (hlt : p.2 < q.2) : st q.1 < st p.1 := by
  have hpR : p ∈ rankStep reg yr st l := hp
  have hzip := rankStep_group_zip reg yr st l r y
  have hpz : (p.1, p.2) ∈ ((sortStep reg yr st l).filter (inRY reg yr r y)).zip
      (List.range' 1 ((sortStep reg yr st l).filter (inRY reg yr r y)).length) := by
    have hpf : p ∈ (rankStep reg yr st l).filter (fun u => inRY reg yr r y u.1) :=
      List.mem_filter.mpr ⟨hpR, hpg⟩
    rw [hzip] at hpf
    simpa using hpf
  have hqz : (q.1, q.2) ∈ ((sortStep reg yr st l).filter (inRY reg yr r y)).zip
      (List.range' 1 ((sortStep reg yr st l).filter (inRY reg yr r y)).length) := by
    have hqf : q ∈ (rankStep reg yr st l).filter (fun u => inRY reg yr r y u.1) :=
      List.mem_filter.mpr ⟨hq, hqg⟩
    rw [hzip] at hqf
    simpa using hqf
  have hsort : List.Pairwise (fun a b => st b ≤ st a)
      ((sortStep reg yr st l).filter (inRY reg yr r y)) := by
    refine List.Pairwise.imp_of_mem ?_
      ((sortStep_sorted reg yr st l).filter (inRY reg yr r y))
    intro a b ha hb hab
    have hga : reg a = r ∧ yr a = y := by
      simpa [inRY] using (List.mem_filter.mp ha).2
    have hgb : reg b = r ∧ yr b = y := by
      simpa [inRY] using (List.mem_filter.mp hb).2
    exact (rankLE_group reg yr st (hga.1.trans hgb.1.symm)
      (hga.2.trans hgb.2.symm)).mp hab
  have hrel : st q.1 ≤ st p.1 :=
    zip_range'_rel (fun a b => st b ≤ st a) _ 1 hsort hpz hqz hlt
  have hndst : (((sortStep reg yr st l).filter (inRY reg yr r y)).map st).Nodup := by
    have hperm : List.Perm (((sortStep reg yr st l).filter (inRY reg yr r y)).map st)
        ((l.filter (inRY reg yr r y)).map st) :=
      ((sortStep_perm reg yr st l).filter _).map st
    exact hperm.nodup_iff.mpr hst
  refine lt_of_le_of_ne hrel fun heq => ?_
  have hq1 : q.1 ∈ (sortStep reg yr st l).filter (inRY reg yr r y) :=
    (List.of_mem_zip hqz).1
  have hp1 : p.1 ∈ (sortStep reg yr st l).filter (inRY reg yr r y) :=
    (List.of_mem_zip hpz).1
  have hqp : q.1 = p.1 := List.inj_on_of_nodup_map hndst hq1 hp1 heq
  rw [hqp] at hqz
  have : p.2 = q.2 :=
    zip_range'_unique _ 1 (List.Nodup.of_map st hndst) hpz hqz
  omega

theorem rank_stable (l : List β) (hnd : l.Nodup) {A B : β}
    (hsub : List.Sublist [A, B] l) (hr : reg A = reg B) (hy : yr A = yr B)
    (hst : st A = st B) {ka kb : Nat}
    (hka : (A, ka) ∈ rankStep reg yr st l)
    (hkb : (B, kb) ∈ rankStep reg yr st l) : ka < kb := by
  have hAB : rankLE reg yr st A B = true := (rankLE_group reg yr st hr hy).mpr hst.ge
  have hsorted : List.Sublist [A, B] (sortStep reg yr st l) :=
    sortByB_pair_sublist _ hAB hsub
  have hgA : inRY reg yr (reg A) (yr A) A = true := by simp [inRY]
  have hgB : inRY reg yr (reg A) (yr A) B = true := by simp [inRY, hr, hy]
  have hsubG : List.Sublist [A, B]
      ((sortStep reg yr st l).filter (inRY reg yr (reg A) (yr A))) := by
    have hf := hsorted.filter (inRY reg yr (reg A) (yr A))
    rwa [show ([A, B].filter (inRY reg yr (reg A) (yr A))) = [A, B] from by
      rw [List.filter_cons_of_pos hgA, List.filter_cons_of_pos hgB,
        List.filter_nil]] at hf
  have hndG : ((sortStep reg yr st l).filter (inRY reg yr (reg A) (yr A))).Nodup :=
    (((sortStep_perm reg yr st l).nodup_iff).mpr hnd).filter _
  have hzip := rankStep_group_zip reg yr st l (reg A) (yr A)
  have hkaz : (A, ka) ∈
      ((sortStep reg yr st l).filter (inRY reg yr (reg A) (yr A))).zip
        (List.range' 1
          ((sortStep reg yr st l).filter (inRY reg yr (reg A) (yr A))).length) := by
    rw [← hzip]
    exact List.mem_filter.mpr ⟨hka, hgA⟩
  have hkbz : (B, kb) ∈
      ((sortStep reg yr st l).filter (inRY reg yr (reg A) (yr A))).zip
        (List.range' 1
          ((sortStep reg yr st l).filter (inRY reg yr (reg A) (yr A))).length) := by
    rw [← hzip]
    exact List.mem_filter.mpr ⟨hkb, hgB⟩
  exact zip_range'_lt _ 1 hndG hsubG hkaz hkbz

end RankLemmas

/-! ### The grouped tables have no duplicate entries -/

theorem groupKeys_nodup {α κ : Type} [DecidableEq κ] (leKey : κ → κ → Bool)
    (keyOf : α → Option κ) (l : List α) : (groupKeys leKey keyOf l).Nodup :=
  (sortByB_perm leKey _).nodup_iff.mpr (List.nodup_dedup _)

theorem ttGroups_nodup (rows : List ChartRow) : (ttGroups rows).Nodup := by
  refine List.Nodup.map_on ?_ (groupKeys_nodup leTT ttKeyOf rows)
  intro x _ y _ hxy
  exact congrArg (fun t : TTAgg => (t.region, t.year, t.url, t.title, t.artist)) hxy

theorem ayGroups_nodup (rows : List ChartRow) : (ayGroups rows).Nodup := by
  refine List.Nodup.map_on ?_ (groupKeys_nodup leAY (fun r => some (ayKeyOf r)) rows)
  intro x _ y _ hxy
  exact congrArg (fun t : AYAgg => (t.region, t.year, t.artist)) hxy

/-- C4: within every (region, year) group of the tt_2021 output (limit
500) and the ay_2021 output (limit 200), the rank_year values are exactly
1, 2, ..., min(number of grouped entries, limit) in order, with no gaps
or duplicates (entries beyond the limit are dropped); and when the summed
streams within the group are pairwise distinct, a higher rank_year always
means strictly smaller streams, so the entries dropped by the truncation
are exactly those with the smallest streams. -/
theorem rank_year_contiguous (rows : List ChartRow) (r : String) (y : Int) :
    ((tt_2021 rows).filter (fun p => inRY TTAgg.region TTAgg.year r y p.1)).map
        Prod.snd =
      List.range' 1
        (min ((ttGroups rows).filter (inRY TTAgg.region TTAgg.year r y)).length 500) ∧
    ((ay_2021 rows).filter (fun p => inRY AYAgg.region AYAgg.year r y p.1)).map
        Prod.snd =
      List.range' 1
        (min ((ayGroups rows).filter (inRY AYAgg.region AYAgg.year r y)).length 200) ∧
    ((((ttGroups rows).filter (inRY TTAgg.region TTAgg.year r y)).map
        TTAgg.streams).Nodup →
      ∀ p q : TTAgg × Nat,
        p ∈ rankStep TTAgg.region TTAgg.year TTAgg.streams (ttGroups rows) →
        inRY TTAgg.region TTAgg.year r y p.1 = true →
        q ∈ rankStep TTAgg.region TTAgg.year TTAgg.streams (ttGroups rows) →
        inRY TTAgg.region TTAgg.year r y q.1 = true →
        p.2 < q.2 → q.1.streams < p.1.streams) ∧
    ((((ayGroups rows).filter (inRY AYAgg.region AYAgg.year r y)).map
        AYAgg.streams).Nodup →
      ∀ p q : AYAgg × Nat,
        p ∈ rankStep AYAgg.region AYAgg.year AYAgg.streams (ayGroups rows) →
        inRY AYAgg.region AYAgg.year r y p.1 = true →
        q ∈ rankStep AYAgg.region AYAgg.year AYAgg.streams (ayGroups rows) →
        inRY AYAgg.region AYAgg.year r y q.1 = true →
        p.2 < q.2 → q.1.streams < p.1.streams) :=
  ⟨rank_output_ranks TTAgg.region TTAgg.year TTAgg.streams (ttGroups rows) r y 500,
   rank_output_ranks AYAgg.region AYAgg.year AYAgg.streams (ayGroups rows) r y 200,
   fun h _ _ hp hpg hq hqg hlt =>
     rank_streams_desc TTAgg.region TTAgg.year TTAgg.streams (ttGroups rows) r y
       h hp hpg hq hqg hlt,
   fun h _ _ hp hpg hq hqg hlt =>
     rank_streams_desc AYAgg.region AYAgg.year AYAgg.streams (ayGroups rows) r y
       h hp hpg hq hqg hlt⟩

/-- C4 witness: two US tracks with distinct streams 9 and 7; the output
ranks are 1 and 2, and the rank-2 entry (streams 7) is strictly below the
rank-1 entry (streams 9), in both tables. -/
theorem rank_year_contiguous_witness :
    ((tt_2021 [wrow1, wrow3]).filter
        (fun p => inRY TTAgg.region TTAgg.year "US" 2021 p.1)).map Prod.snd =
      List.range' 1
        (min ((ttGroups [wrow1, wrow3]).filter
          (inRY TTAgg.region TTAgg.year "US" 2021)).length 500) ∧
    wTTB.streams < wTTC.streams ∧
    wAYA.streams < wAYC.streams := by
  refine ⟨(rank_year_contiguous [wrow1, wrow3] "US" 2021).1, ?_, ?_⟩
  · exact (rank_year_contiguous [wrow1, wrow3] "US" 2021).2.2.1 (by decide)
      (wTTC, 1) (wTTB, 2) (by decide) (by decide) (by decide) (by decide) (by decide)
  · exact (rank_year_contiguous [wrow1, wrow3] "US" 2021).2.2.2 (by decide)
      (wAYC, 1) (wAYA, 2) (by decide) (by decide) (by decide) (by decide) (by decide)

/-- C6: the ranking step breaks ties in summed streams by the order the
entries had after grouping: if entry A precedes entry B in the grouped
table, both lie in the same (region, year) group and have equal summed
streams, then A receives the strictly smaller rank_year, in both the
top-tracks and the artists pipeline (the multi-column sort is stable). -/
theorem tie_break_stable (rows : List ChartRow) :
    (∀ A B : TTAgg, List.Sublist [A, B] (ttGroups rows) →
      A.region = B.region → A.year = B.year → A.streams = B.streams →
      ∀ ka kb : Nat,
        (A, ka) ∈ rankStep TTAgg.region TTAgg.year TTAgg.streams (ttGroups rows) →
        (B, kb) ∈ rankStep TTAgg.region TTAgg.year TTAgg.streams (ttGroups rows) →
        ka < kb) ∧
    (∀ A B : AYAgg, List.Sublist [A, B] (ayGroups rows) →
      A.region = B.region → A.year = B.year → A.streams = B.streams →
      ∀ ka kb : Nat,
        (A, ka) ∈ rankStep AYAgg.region AYAgg.year AYAgg.streams (ayGroups rows) →
        (B, kb) ∈ rankStep AYAgg.region AYAgg.year AYAgg.streams (ayGroups rows) →
        ka < kb) :=
  ⟨fun _ _ hsub hr hy hst _ _ hka hkb =>
    rank_stable TTAgg.region TTAgg.year TTAgg.streams (ttGroups rows)
      (ttGroups_nodup rows) hsub hr hy hst hka hkb,
   fun _ _ hsub hr hy hst _ _ hka hkb =>
    rank_stable AYAgg.region AYAgg.year AYAgg.streams (ayGroups rows)
      (ayGroups_nodup rows) hsub hr hy hst hka hkb⟩

/-- C6 witness: two US tracks with equal streams 7; after grouping the
url a entry precedes the url b entry (key order), and the stable sort
gives it rank 1 and the other rank 2; likewise for the artists table. -/
theorem tie_break_stable_witness :
    List.Sublist [wTTA, wTTB] (ttGroups [wrow1, wrow2]) ∧
    (wTTA, 1) ∈ rankStep TTAgg.region TTAgg.year TTAgg.streams
      (ttGroups [wrow1, wrow2]) ∧
    (wTTB, 2) ∈ rankStep TTAgg.region TTAgg.year TTAgg.streams
      (ttGroups [wrow1, wrow2]) ∧
    (1 : Nat) < 2 ∧
    List.Sublist [wAYA, wAYB] (ayGroups [wrow1, wrow2]) ∧
    (wAYA, 1) ∈ rankStep AYAgg.region AYAgg.year AYAgg.streams
      (ayGroups [wrow1, wrow2]) ∧
    (wAYB, 2) ∈ rankStep AYAgg.region AYAgg.year AYAgg.streams
      (ayGroups [wrow1, wrow2]) := by
  refine ⟨by decide, by decide, by decide, ?_, by decide, by decide, by decide⟩
  exact (tie_break_stable [wrow1, wrow2]).1 wTTA wTTB (by decide) rfl rfl rfl
    1 2 (by decide) (by decide)

/-- C5: for every (region, year) group, total_streams is the sum of the
present streams values of the rows of the group; when no row of the group
has a present streams value the sum is 0 and avg_streams is missing
(none), and every output row of cys_2021 is exactly the aggregation of
its own (region, year) group, so the missing average is preserved in the
output row. -/
theorem cys_streams_sum (rows : List ChartRow) (r : String) (y : Int) :
    (cysAggOf rows (r, y)).total_streams =
      ((rows.filter fun x => decide (cysKeyOf x = (r, y))).filterMap (·.streams)).sum ∧
    ((rows.filter fun x => decide (cysKeyOf x = (r, y))).filterMap (·.streams) = [] →
      (cysAggOf rows (r, y)).total_streams = 0 ∧
        (cysAggOf rows (r, y)).avg_streams = none) ∧
    (∀ c ∈ cys_2021 rows, c = cysAggOf rows (c.region, c.year)) := by
  refine ⟨rfl, fun hemp => ⟨?_, ?_⟩, ?_⟩
  · simp [cysAggOf, hemp]
  · simp [cysAggOf, hemp]
  · intro c hc
    obtain ⟨k, -, hck⟩ := List.mem_map.mp hc
    obtain ⟨k1, k2⟩ := k
    rw [← hck]
    rfl

/-- C5 witness: one US row with streams 100 and one ZZ row with a missing
streams cell: the US group sums to 100; the ZZ group has no present
streams, its total is 0 and its average is missing, also in the output. -/
theorem cys_streams_sum_witness :
    (cysAggOf [wrow1, rNoStream] ("ZZ", 2021)).total_streams = 0 ∧
    (cysAggOf [wrow1, rNoStream] ("ZZ", 2021)).avg_streams = none ∧
    (cysAggOf [wrow1, rNoStream] ("US", 2021)).total_streams = 7 ∧
    cys_2021 [wrow1, rNoStream] =
      [cysAggOf [wrow1, rNoStream] ("US", 2021),
       cysAggOf [wrow1, rNoStream] ("ZZ", 2021)] ∧
    cysAggOf [wrow1, rNoStream] ("US", 2021) =
      cysAggOf [wrow1, rNoStream]
        ((cysAggOf [wrow1, rNoStream] ("US", 2021)).region,
         (cysAggOf [wrow1, rNoStream] ("US", 2021)).year) := by
  refine ⟨((cys_streams_sum [wrow1, rNoStream] "ZZ" 2021).2.1 (by decide)).1,
    ((cys_streams_sum [wrow1, rNoStream] "ZZ" 2021).2.1 (by decide)).2,
    ?_, by decide,
    (cys_streams_sum [wrow1, rNoStream] "US" 2021).2.2
      (cysAggOf [wrow1, rNoStream] ("US", 2021)) (by decide)⟩
  rw [(cys_streams_sum [wrow1, rNoStream] "US" 2021).1]
  decide

/-- C7: a raw row with an unparseable or missing date, a missing region,
a missing chart or a missing or non-numeric rank is silently dropped by
the cleaning pass, wherever it occurs; a row passing all checks whose year
is 2021 and whose lowercased chart is top200 is retained in place as a
cleaned row. -/
theorem cleaning_drops_malformed (xs ys : List RawRow) (r : RawRow) :
    ((r.date = none ∨ r.region = none ∨ r.chart = none ∨ r.rank = none) →
      df_2021 (xs ++ r :: ys) = df_2021 (xs ++ ys)) ∧
    (∀ (d : DayDate) (reg ch : String) (rk : Int),
      r.date = some d → r.region = some reg → r.chart = some ch →
      r.rank = some rk → d.year = 2021 → lowerStr ch = "top200" →
      df_2021 (xs ++ r :: ys) =
        df_2021 xs ++
          ⟨d, reg, ch, rk, r.streams, r.title, r.artist, r.url, 2021⟩ ::
            df_2021 ys) := by
  constructor
  · rintro (h | h | h | h) <;>
      simp [df_2021, List.filterMap_append, List.filterMap_cons, h]
  · intro d reg ch rk hd hreg hch hrk hyear hlow
    simp [df_2021, List.filterMap_append, List.filterMap_cons, hd, hreg, hch, hrk,
      hyear, hlow]

/-- C7 witness: a row with an unparseable date is dropped between two
retained rows, and a well-formed Top200 row of 2021 is retained as its
cleaned image. -/
theorem cleaning_drops_malformed_witness :
    df_2021 ([rawGood] ++ rawBad :: [rawGood]) = df_2021 ([rawGood] ++ [rawGood]) ∧
    df_2021 ([] ++ rawGood :: []) =
      df_2021 [] ++
        ⟨⟨2021, 3⟩, "US", "Top200", 4, some 9, "tw", "aw", some "uw", 2021⟩ ::
          df_2021 [] := by
  constructor
  · exact (cleaning_drops_malformed [rawGood] [rawGood] rawBad).1 (Or.inl rfl)
  · exact (cleaning_drops_malformed [] [] rawGood).2 ⟨2021, 3⟩ "US" "Top200" 4
      rfl rfl rfl rfl rfl (by decide)

/-- C8 (amended): the track identifier is the url column, chosen at
column level (the title column would replace it only if the whole url
column were absent from the input, which the expected schema rules out);
unique_tracks counts the distinct present url cells of the group, so a
row whose url cell is missing contributes nothing to unique_tracks
instead of falling back to its title; and every grouped top-tracks entry
carries the url of some input row. -/
theorem track_key_url_only (rows : List ChartRow) (r : String) (y : Int) :
    (cysAggOf rows (r, y)).unique_tracks =
      ((rows.filter fun x => decide (cysKeyOf x = (r, y))).filterMap (·.url)).dedup.length ∧
    (∀ t ∈ ttGroups rows, ∃ x ∈ rows, x.url = some t.url) := by
  refine ⟨rfl, ?_⟩
  intro t ht
  obtain ⟨k, hk, hkt⟩ := List.mem_map.mp ht
  have hk' : k ∈ (rows.filterMap ttKeyOf).dedup :=
    ((sortByB_perm leTT _).mem_iff).mp hk
  rw [List.mem_dedup] at hk'
  obtain ⟨x, hx, hxk⟩ := List.mem_filterMap.mp hk'
  refine ⟨x, hx, ?_⟩
  cases hurl : x.url with
  | none => rw [ttKeyOf, hurl] at hxk; cases hxk
  | some u =>
    rw [ttKeyOf, hurl] at hxk
    simp only [Option.map_some', Option.some.injEq] at hxk
    rw [← hkt, ← hxk]
    rfl

/-- C8 counterexample: a single cleaned row whose url cell is missing:
the code computes unique_tracks 0 for its group, while the per-row
url-or-title fallback of the claim would count its title and give 1. -/
theorem unique_tracks_no_title_fallback :
    (cysAggOf [rNoUrl] ("US", 2021)).unique_tracks ≠
      unique_tracks_spec [rNoUrl] ("US", 2021) ∧
    (cysAggOf [rNoUrl] ("US", 2021)).unique_tracks = 0 ∧
    unique_tracks_spec [rNoUrl] ("US", 2021) = 1 := by
  decide

/-- C8 witness: on a row with a present url cell the unique_tracks count
is the distinct-url count, and the grouped top-tracks entry carries the
url of that input row. -/
theorem track_key_url_only_witness :
    (cysAggOf [wrow1] ("US", 2021)).unique_tracks =
      (([wrow1].filter fun x => decide (cysKeyOf x = ("US", 2021))).filterMap
        (·.url)).dedup.length ∧
    (∃ x ∈ [wrow1], x.url = some wTTB.url) := by
  refine ⟨(track_key_url_only [wrow1] "US" 2021).1, ?_⟩
  exact (track_key_url_only [wrow1] "US" 2021).2 wTTB (by decide)

/-- C9: the dashboards do not read only §3 column names: both front ends
subscript iso3, country and avg_rank on the summary table and
streams_sum, track_name, artist_name and days_charted on the tracks and
artists tables, none of which the Aggregator writes; the only reads that
are §3 columns are year, total_streams, unique_tracks, unique_artists and
best_rank. -/
theorem dashboard_reads_mismatch :
    ("iso3" ∈ appCysReads ∧ "iso3" ∈ shinyCysReads ∧ "iso3" ∉ cysCols) ∧
    ("streams_sum" ∈ appTTReads ∧ "streams_sum" ∈ shinyTTReads ∧
      "streams_sum" ∉ ttCols) ∧
    ("artist_name" ∈ appAYReads ∧ "artist_name" ∈ shinyAYReads ∧
      "artist_name" ∉ ayCols) ∧
    appCysReads.all (fun c => decide (c ∈ cysCols) ||
      decide (c ∈ ["iso3", "country", "avg_rank"])) = true ∧
    appTTReads.all (fun c => decide (c ∈ ttCols) ||
      decide (c ∈ ["country", "streams_sum", "track_name", "artist_name",
        "days_charted"])) = true ∧
    appAYReads.all (fun c => decide (c ∈ ayCols) ||
      decide (c ∈ ["artist_name", "streams_sum", "country"])) = true ∧
    shinyCysReads.all (fun c => c ∈ appCysReads) = true ∧
    shinyTTReads.all (fun c => c ∈ appTTReads) = true ∧
    shinyAYReads.all (fun c => c ∈ appAYReads) = true := by
  decide

/-- C10: a cleaned row whose url cell is missing is silently excluded
from the top-tracks output entirely (the groupby key contains the url, and
groupby drops rows with a missing key), while the same row still counts
toward chart_rows and contributes its streams to total_streams in the
country-year summary of its (region, year) group. -/
theorem missing_url_excluded_from_top_tracks (xs ys : List ChartRow) (r : ChartRow)
    (hurl : r.url = none) :
    tt_2021 (xs ++ r :: ys) = tt_2021 (xs ++ ys) ∧
    (cysAggOf (xs ++ r :: ys) (r.region, r.year)).chart_rows =
      (cysAggOf (xs ++ ys) (r.region, r.year)).chart_rows + 1 ∧
    (cysAggOf (xs ++ r :: ys) (r.region, r.year)).total_streams =
      (cysAggOf (xs ++ ys) (r.region, r.year)).total_streams + r.streams.getD 0 := by
  have hkey : ttKeyOf r = none := by rw [ttKeyOf, hurl]; rfl
  refine ⟨?_, ?_, ?_⟩
  · have hkeys : groupKeys leTT ttKeyOf (xs ++ r :: ys) =
        groupKeys leTT ttKeyOf (xs ++ ys) := by
      simp [groupKeys, List.filterMap_append, List.filterMap_cons, hkey]
    have hagg : ∀ k, ttAggOf (xs ++ r :: ys) k = ttAggOf (xs ++ ys) k := by
      intro k
      have hfil : (xs ++ r :: ys).filter (fun row => decide (ttKeyOf row = some k)) =
          (xs ++ ys).filter (fun row => decide (ttKeyOf row = some k)) := by
        rw [List.filter_append, List.filter_append,
          List.filter_cons_of_neg (by simp [hkey])]
      simp [ttAggOf, hfil]
    have hgr : ttGroups (xs ++ r :: ys) = ttGroups (xs ++ ys) := by
      rw [ttGroups, ttGroups, hkeys]
      exact List.map_congr_left fun k _ => hagg k
    simp only [tt_2021, hgr]
  · have hfil : (xs ++ r :: ys).filter
        (fun x => decide (cysKeyOf x = (r.region, r.year))) =
        xs.filter (fun x => decide (cysKeyOf x = (r.region, r.year))) ++
          r :: ys.filter (fun x => decide (cysKeyOf x = (r.region, r.year))) := by
      rw [List.filter_append, List.filter_cons_of_pos (by simp [cysKeyOf])]
    simp [cysAggOf, hfil, List.filter_append]
    omega
  · have hfil : (xs ++ r :: ys).filter
        (fun x => decide (cysKeyOf x = (r.region, r.year))) =
        xs.filter (fun x => decide (cysKeyOf x = (r.region, r.year))) ++
          r :: ys.filter (fun x => decide (cysKeyOf x = (r.region, r.year))) := by
      rw [List.filter_append, List.filter_cons_of_pos (by simp [cysKeyOf])]
    cases hs : r.streams with
    | none =>
      simp [cysAggOf, hfil, List.filter_append, List.filterMap_append,
        List.filterMap_cons, hs]
    | some v =>
      simp [cysAggOf, hfil, List.filter_append, List.filterMap_append,
        List.filterMap_cons, hs]
      omega

/-- C10 witness: appending a url-less US row to a one-row input leaves
tt_2021 unchanged, while chart_rows of the US group grows by one and
total_streams by its streams value 5. -/
theorem missing_url_excluded_witness :
    tt_2021 [wrow1, rNoUrl] = tt_2021 [wrow1] ∧
    (cysAggOf [wrow1, rNoUrl] ("US", 2021)).chart_rows =
      (cysAggOf [wrow1] ("US", 2021)).chart_rows + 1 ∧
    (cysAggOf [wrow1, rNoUrl] ("US", 2021)).total_streams =
      (cysAggOf [wrow1] ("US", 2021)).total_streams + 5 :=
  missing_url_excluded_from_top_tracks [wrow1] [] rNoUrl rfl
